import Mathlib

/-!
Verification development for the box-pair interaction pipeline of the
pocket repository (interact_rcnn.py and masked_roi_align.py).

The Python source is shallowly embedded: tensors become lists (or total
functions for scatter-updated matrices), float arithmetic becomes exact ℚ
arithmetic, integer tensor arithmetic becomes ℤ with the division semantics
of the source (torch integer division truncates toward zero, Python
floor-division and modulo are Int.fdiv / Int.fmod), and fallible code
returns Except.
-/

namespace Pocket

/-! ### Generic pointwise-update (scatter) infrastructure

Advanced-indexing assignments such as mapped_scores[pair_idx, flat_hoi_idx] = v
are embedded as left folds of single-cell updates over the flattened index
list, matching the sequential last-write-wins semantics of the assignment. -/

def writeCell {α β : Type} [DecidableEq α] (f : α → β) (k : α) (v : β) : α → β :=
  fun x => if x = k then v else f x

theorem writeCell_same {α β : Type} [DecidableEq α] (f : α → β) (k : α) (v : β) :
    writeCell f k v k = v := by
  simp [writeCell]

theorem writeCell_other {α β : Type} [DecidableEq α] (f : α → β) (k x : α) (v : β)
    (h : x ≠ k) : writeCell f k v x = f x := by
  simp [writeCell, h]

theorem foldl_writeCell_not_mem {α β : Type} [DecidableEq α]
    (l : List (α × β)) (init : α → β) (k : α) (h : ∀ e ∈ l, e.1 ≠ k) :
    (l.foldl (fun f e => writeCell f e.1 e.2) init) k = init k := by
  induction l generalizing init with
  | nil => rfl
  | cons e t ih =>
      have hk : k ≠ e.1 := fun hkk => (h e (List.mem_cons_self e t)) hkk.symm
      simp only [List.foldl_cons]
      rw [ih (writeCell init e.1 e.2) (fun x hx => h x (List.mem_cons_of_mem e hx))]
      exact writeCell_other init e.1 k e.2 hk

theorem foldl_writeCell_keyed {α β : Type} [DecidableEq α]
    (v : α → β) (l : List α) (init : α → β) (k : α) :
    (l.foldl (fun f a => writeCell f a (v a)) init) k = if k ∈ l then v k else init k := by
  induction l generalizing init with
  | nil => simp
  | cons a t ih =>
      simp only [List.foldl_cons, ih, List.mem_cons]
      by_cases hkt : k ∈ t
      · simp [hkt]
      · by_cases hka : k = a
        · simp [hka, hkt, writeCell_same]
        · simp [hka, hkt, writeCell_other init a k (v a) hka]

theorem foldl_writeCell_keyfun_const {α β γ : Type} [DecidableEq β]
    (g : α → β) (c0 : γ) (l : List α) (init : β → γ) (k : β) :
    (l.foldl (fun f a => writeCell f (g a) c0) init) k
      = if ∃ a ∈ l, g a = k then c0 else init k := by
  induction l generalizing init with
  | nil => simp
  | cons a t ih =>
      rw [List.foldl_cons, ih]
      by_cases hkt : ∃ x ∈ t, g x = k
      · obtain ⟨x, hx, hgx⟩ := hkt
        rw [if_pos ⟨x, hx, hgx⟩, if_pos ⟨x, List.mem_cons_of_mem a hx, hgx⟩]
      · by_cases hka : g a = k
        · rw [if_neg hkt, if_pos ⟨a, List.mem_cons_self a t, hka⟩, ← hka, writeCell_same]
        · have hnone : ¬ ∃ x ∈ a :: t, g x = k := by
            rintro ⟨x, hx, hgx⟩
            rcases List.mem_cons.mp hx with h | h
            · exact hka (h ▸ hgx)
            · exact hkt ⟨x, h, hgx⟩
          rw [if_neg hkt, if_neg hnone]
          exact writeCell_other init (g a) k c0 (fun h => hka h.symm)

theorem foldl_writeCell_last {α β : Type} [DecidableEq α]
    (l1 l2 : List (α × β)) (e : α × β) (init : α → β)
    (h : ∀ x ∈ l2, x.1 ≠ e.1) :
    ((l1 ++ e :: l2).foldl (fun f x => writeCell f x.1 x.2) init) e.1 = e.2 := by
  rw [List.foldl_append, List.foldl_cons, foldl_writeCell_not_mem l2 _ e.1 h,
    writeCell_same]

/-! ### Data model -/

/-- Embedding of a box row (x1, y1, x2, y2) of a [N,4] float tensor. -/
structure Box where
  x1 : ℚ
  y1 : ℚ
  x2 : ℚ
  y2 : ℚ
deriving DecidableEq

def boxZero : Box := ⟨0, 0, 0, 0⟩

/-- Embedding of the per-image interaction targets dict:
boxes_h [G,4], boxes_o [G,4], hoi [G], object [G]. -/
structure GTTargets where
  boxesH : List Box
  boxesO : List Box
  hoi : List ℕ
  object : List ℕ
deriving DecidableEq

/-- Per-image detection state threaded through pair construction:
paired_idx [M,2], boxes [N,4], labels [N], scores [N]. -/
structure PairedDetections where
  pairedIdx : List (ℕ × ℕ)
  boxes : List Box
  labels : List ℕ
  scores : List ℚ
deriving DecidableEq

/-! ### Pair construction (InteractionHead.pair_up_boxes_and_assign_to_targets,
lines 253-262) -/

/-- Embedding of torch.nonzero(labels_in_image == self.human_idx).squeeze(1):
the ascending list of detection indices whose label is the human class. -/
def humanIndices (labels : List ℕ) (humanIdx : ℕ) : List ℕ :=
  (List.range labels.length).filter (fun i => labels.getD i 0 == humanIdx)

/-- Embedding of the candidate-pair construction: meshgrid(h_idx, arange(N))
flattened row-major into [M,2], then pairs with equal entries removed. -/
def pairedIdxOf (labels : List ℕ) (humanIdx : ℕ) : List (ℕ × ℕ) :=
  ((humanIndices labels humanIdx).flatMap (fun h =>
    (List.range labels.length).map (fun o => (h, o)))).filter (fun p => p.1 != p.2)

/-! ### Ground-truth injection (InteractionHead.append_ground_truth_box_pairs,
lines 144-192) -/

/-- Embedding of append_ground_truth_box_pairs.  The synthetic pair tensor
arange(2G).view(2, G).transpose(0, 1) has rows (i, G + i); it is prepended to
paired_idx, the G ground-truth human and G object boxes are prepended to the
detection boxes, the human class and the true object classes to the labels,
and 2G unit scores to the scores.  The pre-existing entries of paired_idx are
concatenated unchanged. -/
def appendGroundTruthBoxPairs (humanIdx : ℕ) (s : PairedDetections) (t : GTTargets) :
    PairedDetections :=
  let numGt := t.boxesH.length
  { pairedIdx := (List.range numGt).map (fun i => (i, numGt + i)) ++ s.pairedIdx
    boxes := t.boxesH ++ t.boxesO ++ s.boxes
    labels := List.replicate numGt humanIdx ++ t.object ++ s.labels
    scores := List.replicate (2 * numGt) 1 ++ s.scores }

theorem length_filter_bne_range (N h : ℕ) (hh : h < N) :
    ((List.range N).filter (fun o => h != o)).length = N - 1 := by
  induction N with
  | zero => omega
  | succ n ih =>
      rw [List.range_succ, List.filter_append, List.length_append]
      by_cases hn : h = n
      · subst hn
        have h1 : (List.range h).filter (fun o => h != o) = List.range h := by
          refine List.filter_eq_self.mpr (fun o ho => ?_)
          have : o < h := List.mem_range.mp ho
          simp only [bne_iff_ne, ne_eq, decide_eq_true_eq]
          omega
        have h2 : ([h].filter (fun o => h != o)) = [] := by simp
        rw [h1, h2]
        simp [List.length_range]
      · have hlt : h < n := by omega
        have h2 : ([n].filter (fun o => h != o)) = [n] := by
          simp only [List.filter_cons, List.filter_nil]
          have : (h != n) = true := by simp [bne_iff_ne]; omega
          simp [this]
        rw [ih hlt, h2]
        simp
        omega

theorem mem_humanIndices_lt (labels : List ℕ) (humanIdx h : ℕ)
    (hh : h ∈ humanIndices labels humanIdx) : h < labels.length := by
  have := List.mem_filter.mp hh
  exact List.mem_range.mp this.1

/-- C8: for a detection set with H human-labeled boxes among N total boxes, the
candidate pair list (pre-injection) equals the row-major enumeration over
(human index, all index), both ascending, with self-pairs excluded, and has
exactly H*(N-1) entries; H = 0 gives the empty list. -/
theorem paired_idx_count_and_order (labels : List ℕ) (humanIdx : ℕ) :
    pairedIdxOf labels humanIdx
      = (humanIndices labels humanIdx).flatMap (fun h =>
          ((List.range labels.length).filter (fun o => h != o)).map (fun o => (h, o)))
    ∧ (pairedIdxOf labels humanIdx).length
      = (humanIndices labels humanIdx).length * (labels.length - 1) := by
  have horder : pairedIdxOf labels humanIdx
      = (humanIndices labels humanIdx).flatMap (fun h =>
          ((List.range labels.length).filter (fun o => h != o)).map (fun o => (h, o))) := by
    unfold pairedIdxOf
    rw [List.filter_flatMap]
    refine List.flatMap_congr (fun h hmem => ?_)
    rw [List.filter_map]
    rfl
  refine ⟨horder, ?_⟩
  rw [horder, List.length_flatMap]
  have hmap : (humanIndices labels humanIdx).map
        (List.length ∘ fun h =>
          ((List.range labels.length).filter (fun o => h != o)).map (fun o => (h, o)))
      = (humanIndices labels humanIdx).map (fun _ => labels.length - 1) := by
    refine List.map_congr_left (fun h hmem => ?_)
    simp only [Function.comp_apply, List.length_map]
    exact length_filter_bne_range labels.length h (mem_humanIndices_lt labels humanIdx h hmem)
  rw [hmap]
  induction humanIndices labels humanIdx with
  | nil => simp
  | cons a t ih => simp only [List.map_cons, List.sum_cons, ih, List.length_cons]; ring

/-- C1: concrete evaluation showing that after ground-truth injection a
pre-existing candidate pair keeps its unshifted indices, so its h_index now
points into the prepended ground-truth block and carries a non-human label.
Detections have labels [1, 0, 2] with human class 0 (the human is detection 1);
one ground-truth pair with object class 1 is injected.  The old pair (1, 0)
survives verbatim, but position 1 of the post-concatenation label array now
holds the ground-truth object class 1, not the human class 0. -/
theorem append_ground_truth_breaks_human_label_invariant :
    (1, 0) ∈ (appendGroundTruthBoxPairs 0
        { pairedIdx := pairedIdxOf [1, 0, 2] 0
          boxes := [boxZero, boxZero, boxZero]
          labels := [1, 0, 2]
          scores := [1, 1, 1] }
        { boxesH := [boxZero], boxesO := [boxZero], hoi := [0], object := [1] }).pairedIdx
    ∧ (appendGroundTruthBoxPairs 0
        { pairedIdx := pairedIdxOf [1, 0, 2] 0
          boxes := [boxZero, boxZero, boxZero]
          labels := [1, 0, 2]
          scores := [1, 1, 1] }
        { boxesH := [boxZero], boxesO := [boxZero], hoi := [0], object := [1] }).labels.getD 1 0
      ≠ 0 := by
  constructor
  · decide
  · decide

/-! ### Prior score mapping
(InteractionHead.map_object_scores_to_interaction_scores, lines 114-142) -/

/-- Embedding of map_object_scores_to_interaction_scores.  The returned matrix
mapped_scores [M,K] is represented as a total function on index pairs,
initialised to zero; the advanced-indexing assignment
mapped_scores[pair_idx, flat_hoi_idx] = prod[pair_idx] becomes a left fold of
single-cell writes over the flattened (pair index, hoi class) list. -/
def mapObjectScoresToInteractionScores (clsMap : List (List ℕ)) (scores : List ℚ)
    (labels : List ℕ) (pairedIdx : List (ℕ × ℕ)) : ℕ × ℕ → ℚ :=
  let prod := pairedIdx.map (fun p => scores.getD p.1 0 * scores.getD p.2 0)
  let hoiIdx := pairedIdx.map (fun p => clsMap.getD (labels.getD p.2 0) [])
  let updates := (List.range pairedIdx.length).flatMap (fun i =>
    (hoiIdx.getD i []).map (fun c => (i, c)))
  updates.foldl (fun f ic => writeCell f ic (prod.getD ic.1 0)) (fun _ => 0)

/-- C6: row i of the mapped score matrix holds scores[h]*scores[o] exactly at
the interaction classes mapped from the object label of pair i, and zero
everywhere else (an object label with empty fan-out gives an all-zero row). -/
theorem map_object_scores_spec (clsMap : List (List ℕ)) (scores : List ℚ)
    (labels : List ℕ) (pairedIdx : List (ℕ × ℕ)) (i c : ℕ)
    (hi : i < pairedIdx.length) :
    mapObjectScoresToInteractionScores clsMap scores labels pairedIdx (i, c)
      = if c ∈ clsMap.getD (labels.getD (pairedIdx.getD i (0, 0)).2 0) []
        then scores.getD (pairedIdx.getD i (0, 0)).1 0
              * scores.getD (pairedIdx.getD i (0, 0)).2 0
        else 0 := by
  unfold mapObjectScoresToInteractionScores
  have hfold := foldl_writeCell_keyed
    (fun ic : ℕ × ℕ =>
      (pairedIdx.map (fun p => scores.getD p.1 0 * scores.getD p.2 0)).getD ic.1 0)
    ((List.range pairedIdx.length).flatMap (fun i =>
      ((pairedIdx.map (fun p => clsMap.getD (labels.getD p.2 0) [])).getD i []).map
        (fun c => (i, c))))
    (fun _ => 0) (i, c)
  simp only at hfold ⊢
  rw [hfold]
  have hgetD : pairedIdx.getD i (0, 0) = pairedIdx[i] := List.getD_eq_getElem pairedIdx (0, 0) hi
  have hprod : (pairedIdx.map (fun p => scores.getD p.1 0 * scores.getD p.2 0)).getD i 0
      = scores.getD pairedIdx[i].1 0 * scores.getD pairedIdx[i].2 0 := by
    have hi2 : i < (pairedIdx.map (fun p => scores.getD p.1 0 * scores.getD p.2 0)).length := by
      simpa using hi
    rw [List.getD_eq_getElem _ _ hi2, List.getElem_map]
  have hhoi : (pairedIdx.map (fun p => clsMap.getD (labels.getD p.2 0) [])).getD i []
      = clsMap.getD (labels.getD pairedIdx[i].2 0) [] := by
    have hi2 : i < (pairedIdx.map (fun p => clsMap.getD (labels.getD p.2 0) [])).length := by
      simpa using hi
    rw [List.getD_eq_getElem _ _ hi2, List.getElem_map]
  have hmem : ((i, c) ∈ (List.range pairedIdx.length).flatMap (fun i =>
        ((pairedIdx.map (fun p => clsMap.getD (labels.getD p.2 0) [])).getD i []).map
          (fun c => (i, c))))
      ↔ c ∈ clsMap.getD (labels.getD pairedIdx[i].2 0) [] := by
    constructor
    · rintro h
      obtain ⟨i2, hi2, h2⟩ := List.mem_flatMap.mp h
      obtain ⟨c2, hc2, hecc⟩ := List.mem_map.mp h2
      obtain ⟨rfl, rfl⟩ := Prod.mk.injEq .. ▸ hecc
      rwa [hhoi] at hc2
    · intro h
      refine List.mem_flatMap.mpr ⟨i, List.mem_range.mpr hi, ?_⟩
      refine List.mem_map.mpr ⟨c, ?_, rfl⟩
      rwa [hhoi]
  rw [hgetD]
  by_cases hc : c ∈ clsMap.getD (labels.getD pairedIdx[i].2 0) []
  · rw [if_pos (hmem.mpr hc), if_pos hc, hprod]
  · rw [if_neg (fun h => hc (hmem.mp h)), if_neg hc]

/-- Witness for C6, the end-to-end example of the spec: three detections with
scores 0.9, 0.8, 0.7 and labels human, cup, chair; the cup object of pair
(0, 1) maps to interaction class 5, so its mapped score is 0.72 there. -/
theorem map_object_scores_spec_witness :
    mapObjectScoresToInteractionScores [[], [5], [5, 9]] [9/10, 8/10, 7/10]
      [0, 1, 2] [(0, 1), (0, 2)] (0, 5) = 72/100 :=
  (map_object_scores_spec [[], [5], [5, 9]] [9/10, 8/10, 7/10]
    [0, 1, 2] [(0, 1), (0, 2)] 0 5 (by decide)).trans (by
      simp only [List.getD_cons_zero, List.getD_cons_succ]
      norm_num)

/-! ### IoU-based label assignment
(InteractionHead.pair_up_boxes_and_assign_to_targets, lines 279-291) -/

/-- Embedding of torchvision box_ops.box_iou for a single pair of boxes:
intersection over union with the intersection width and height clamped at 0. -/
def boxArea (b : Box) : ℚ := (b.x2 - b.x1) * (b.y2 - b.y1)

/-- Intersection-over-union of two boxes, as computed by box_ops.box_iou. -/
def boxIou (a b : Box) : ℚ :=
  let interW := max 0 (min a.x2 b.x2 - max a.x1 b.x1)
  let interH := max 0 (min a.y2 b.y2 - max a.y1 b.y1)
  let inter := interW * interH
  inter / (boxArea a + boxArea b - inter)

/-- Elementwise minimum of the two IoU matrices at entry (candidate, gt),
torch.min(box_iou(boxes_h, gt_h), box_iou(boxes_o, gt_o)). -/
def pairMinIou (bh bo gh go : Box) : ℚ := min (boxIou bh gh) (boxIou bo go)

/-- Embedding of torch.nonzero(min-IoU matrix >= fg_iou_thresh).view(-1, 2):
row-major list of (candidate index, ground-truth index) with qualifying
minimum IoU. -/
def fgMatches (thresh : ℚ) (boxesH boxesO : List Box) (t : GTTargets) : List (ℕ × ℕ) :=
  (List.range boxesH.length).flatMap (fun i =>
    ((List.range t.boxesH.length).filter (fun j =>
      decide (thresh ≤ pairMinIou (boxesH.getD i boxZero) (boxesO.getD i boxZero)
        (t.boxesH.getD j boxZero) (t.boxesO.getD j boxZero)))).map (fun j => (i, j)))

/-- Embedding of the binary label matrix hoi_labels [M,K] as a total function:
initialised to zero, then hoi_labels[fg_match[:,0], hoi[fg_match[:,1]]] = 1. -/
def assignHoiLabels (thresh : ℚ) (boxesH boxesO : List Box) (t : GTTargets) :
    ℕ × ℕ → ℚ :=
  (fgMatches thresh boxesH boxesO t).foldl
    (fun f ij => writeCell f (ij.1, t.hoi.getD ij.2 0) 1) (fun _ => 0)

/-- C7: the label bit of candidate i at class c is 1 exactly when some
ground-truth pair with hoi class c matches the candidate with minimum IoU at
least fg_iou_thresh; a candidate matching several ground-truth pairs with
different classes receives several bits (multi-label). -/
theorem assign_hoi_labels_iff (thresh : ℚ) (boxesH boxesO : List Box)
    (t : GTTargets) (i c : ℕ) (hi : i < boxesH.length) :
    assignHoiLabels thresh boxesH boxesO t (i, c) = 1
      ↔ ∃ j, j < t.boxesH.length ∧ t.hoi.getD j 0 = c ∧
          thresh ≤ pairMinIou (boxesH.getD i boxZero) (boxesO.getD i boxZero)
            (t.boxesH.getD j boxZero) (t.boxesO.getD j boxZero) := by
  unfold assignHoiLabels
  rw [foldl_writeCell_keyfun_const]
  have hone : (1 : ℚ) ≠ 0 := one_ne_zero
  constructor
  · intro h
    by_cases hcond : ∃ ij ∈ fgMatches thresh boxesH boxesO t, (ij.1, t.hoi.getD ij.2 0) = (i, c)
    · obtain ⟨ij, hmem, heq⟩ := hcond
      obtain ⟨i2, hi2, h2⟩ := List.mem_flatMap.mp hmem
      obtain ⟨j, hj, hej⟩ := List.mem_map.mp h2
      have hjf := List.mem_filter.mp hj
      have hjlt : j < t.boxesH.length := List.mem_range.mp hjf.1
      have hjp : thresh ≤ pairMinIou (boxesH.getD i2 boxZero) (boxesO.getD i2 boxZero)
          (t.boxesH.getD j boxZero) (t.boxesO.getD j boxZero) := of_decide_eq_true hjf.2
      have hij1 : ij.1 = i2 ∧ ij.2 = j := by
        cases hej; exact ⟨rfl, rfl⟩
      have heq1 : ij.1 = i := congrArg Prod.fst heq
      have heq2 : t.hoi.getD ij.2 0 = c := congrArg Prod.snd heq
      refine ⟨j, hjlt, ?_, ?_⟩
      · rw [← hij1.2]; exact heq2
      · rw [← heq1, hij1.1]; exact hjp
    · rw [if_neg hcond] at h
      exact absurd h.symm hone
  · rintro ⟨j, hjlt, hhoi, hiou⟩
    have hmem : ((i, j) : ℕ × ℕ) ∈ fgMatches thresh boxesH boxesO t := by
      refine List.mem_flatMap.mpr ⟨i, List.mem_range.mpr hi, ?_⟩
      refine List.mem_map.mpr ⟨j, ?_, rfl⟩
      exact List.mem_filter.mpr ⟨List.mem_range.mpr hjlt, decide_eq_true hiou⟩
    rw [if_pos ⟨(i, j), hmem, by simpa using hhoi⟩]

/-- Witness for C7: one candidate pair whose boxes coincide with the single
ground-truth pair (both IoUs are 1, so the minimum reaches any threshold up
to 1), labelled with hoi class 3. -/
theorem assign_hoi_labels_iff_witness :
    assignHoiLabels (1/2) [⟨0, 0, 1, 1⟩] [⟨2, 2, 3, 3⟩]
      { boxesH := [⟨0, 0, 1, 1⟩], boxesO := [⟨2, 2, 3, 3⟩], hoi := [3], object := [7] }
      (0, 3) = 1 :=
  (assign_hoi_labels_iff (1/2) [⟨0, 0, 1, 1⟩] [⟨2, 2, 3, 3⟩]
    { boxesH := [⟨0, 0, 1, 1⟩], boxesO := [⟨2, 2, 3, 3⟩], hoi := [3], object := [7] }
    0 3 (by decide)).mpr
    ⟨0, by decide, by decide, by norm_num [pairMinIou, boxIou, boxArea]⟩

/-! ### Subsampling (InteractionHead.subsample, lines 194-222) -/

/-- Positivity test of a label row: labels.sum(1) compared against zero by
torch.nonzero. -/
def isPositiveRow (row : List ℚ) : Bool := row.sum != 0

/-- Embedding of pos_idx = torch.nonzero(is_positive).squeeze(1). -/
def posIndices (labels : List (List ℚ)) : List ℕ :=
  (List.range labels.length).filter (fun i => isPositiveRow (labels.getD i []))

/-- Embedding of neg_idx = torch.nonzero(is_positive == 0).squeeze(1). -/
def negIndices (labels : List (List ℚ)) : List ℕ :=
  (List.range labels.length).filter (fun i => !isPositiveRow (labels.getD i []))

/-- Embedding of InteractionHead.subsample.  The torch.randperm draws are
passed in as explicit permutations permPos and permNeg of the index ranges of
pos_idx and neg_idx; slicing with [:n] becomes List.take (Python slices clamp
at the list length exactly as take does).  Python int() truncation of the
nonnegative float products becomes the rational floor (positive_fraction is a
configured value in (0, 1], so each truncated quantity is nonnegative). -/
def subsample (numBoxPairsPerImage : ℕ) (positiveFraction : ℚ)
    (labels : List (List ℚ)) (permPos permNeg : List ℕ) : List ℕ :=
  let pos := posIndices labels
  let neg := negIndices labels
  if (pos.length : ℚ) < (numBoxPairsPerImage : ℚ) * positiveFraction then
    let numNegToSample :=
      (⌊(pos.length : ℚ) * (1 - positiveFraction) / positiveFraction⌋).toNat
    pos ++ (permNeg.take numNegToSample).map (fun k => neg.getD k 0)
  else
    let numPosToSample := (⌊(numBoxPairsPerImage : ℚ) * positiveFraction⌋).toNat
    let numNegToSample := numBoxPairsPerImage - numPosToSample
    (permPos.take numPosToSample).map (fun k => pos.getD k 0)
      ++ (permNeg.take numNegToSample).map (fun k => neg.getD k 0)

theorem take_perm_map_getD (l : List ℕ) (perm : List ℕ) (n : ℕ)
    (hp : perm.Perm (List.range l.length)) :
    ((perm.take n).map (fun k => l.getD k 0)).length = min n l.length
    ∧ (∀ x ∈ (perm.take n).map (fun k => l.getD k 0), x ∈ l)
    ∧ (l.Nodup → ((perm.take n).map (fun k => l.getD k 0)).Nodup) := by
  have hplen : perm.length = l.length := by
    rw [hp.length_eq, List.length_range]
  have hmemlt : ∀ k ∈ perm.take n, k < l.length := by
    intro k hk
    have : k ∈ perm := List.mem_of_mem_take hk
    exact List.mem_range.mp (hp.mem_iff.mp this)
  refine ⟨?_, ?_, ?_⟩
  · rw [List.length_map, List.length_take, hplen]
  · intro x hx
    obtain ⟨k, hk, rfl⟩ := List.mem_map.mp hx
    have hlt := hmemlt k hk
    rw [List.getD_eq_getElem l 0 hlt]
    exact List.getElem_mem hlt
  · intro hl
    have hpermNodup : perm.Nodup := hp.nodup_iff.mpr (List.nodup_range _)
    have htakeNodup : (perm.take n).Nodup :=
      List.Nodup.sublist (List.take_sublist n perm) hpermNodup
    refine List.Nodup.map_on ?_ htakeNodup
    intro k1 hk1 k2 hk2 heq
    have h1 := hmemlt k1 hk1
    have h2 := hmemlt k2 hk2
    rw [List.getD_eq_getElem l 0 h1, List.getD_eq_getElem l 0 h2] at heq
    exact (List.Nodup.getElem_inj_iff hl).mp heq

theorem mem_posIndices_prop (labels : List (List ℚ)) (i : ℕ)
    (h : i ∈ posIndices labels) : isPositiveRow (labels.getD i []) = true :=
  (List.mem_filter.mp h).2

theorem mem_negIndices_prop (labels : List (List ℚ)) (i : ℕ)
    (h : i ∈ negIndices labels) : isPositiveRow (labels.getD i []) = false := by
  have := (List.mem_filter.mp h).2
  simpa using this

/-- C5 (amended): with the randperm draws made explicit, when positives are
scarce the output is all P positives plus min(floor(P*(1-f)/f), Q) negatives;
otherwise it is int(num_box_pairs_per_image*f) positives (int() truncation,
not round) plus min(num_box_pairs_per_image - int(num*f), Q) negatives — the
configured total is reached only when enough negatives exist; in either case
no index repeats. -/
theorem subsample_sizes (numPairs : ℕ) (frac : ℚ) (labels : List (List ℚ))
    (permPos permNeg : List ℕ)
    (hp : permPos.Perm (List.range (posIndices labels).length))
    (hn : permNeg.Perm (List.range (negIndices labels).length))
    (hf0 : 0 < frac) (hf1 : frac ≤ 1) :
    ((((posIndices labels).length : ℚ) < (numPairs : ℚ) * frac →
        (subsample numPairs frac labels permPos permNeg).length
          = (posIndices labels).length
            + min ((⌊((posIndices labels).length : ℚ) * (1 - frac) / frac⌋).toNat)
                (negIndices labels).length
        ∧ (subsample numPairs frac labels permPos permNeg).countP
              (fun i => isPositiveRow (labels.getD i []))
            = (posIndices labels).length)
    ∧ (¬ (((posIndices labels).length : ℚ) < (numPairs : ℚ) * frac) →
        (subsample numPairs frac labels permPos permNeg).length
          = (⌊(numPairs : ℚ) * frac⌋).toNat
            + min (numPairs - (⌊(numPairs : ℚ) * frac⌋).toNat) (negIndices labels).length
        ∧ (subsample numPairs frac labels permPos permNeg).countP
              (fun i => isPositiveRow (labels.getD i []))
            = (⌊(numPairs : ℚ) * frac⌋).toNat)
    ∧ (subsample numPairs frac labels permPos permNeg).Nodup) := by
  have hposNodup : (posIndices labels).Nodup :=
    List.Nodup.filter _ (List.nodup_range _)
  have hnegNodup : (negIndices labels).Nodup :=
    List.Nodup.filter _ (List.nodup_range _)
  by_cases hb : (((posIndices labels).length : ℚ) < (numPairs : ℚ) * frac)
  · have hsub : subsample numPairs frac labels permPos permNeg
        = posIndices labels
          ++ ((permNeg.take ((⌊((posIndices labels).length : ℚ)
                * (1 - frac) / frac⌋).toNat)).map
              (fun k => (negIndices labels).getD k 0)) := by
      unfold subsample
      rw [if_pos hb]
    obtain ⟨hlen, hmem, hnd⟩ := take_perm_map_getD (negIndices labels) permNeg
      ((⌊((posIndices labels).length : ℚ) * (1 - frac) / frac⌋).toNat) hn
    refine ⟨fun _ => ⟨?_, ?_⟩, fun hc => absurd hb hc, ?_⟩
    · rw [hsub, List.length_append, hlen]
    · rw [hsub, List.countP_append]
      have h1 : (posIndices labels).countP (fun i => isPositiveRow (labels.getD i []))
          = (posIndices labels).length :=
        List.countP_eq_length.mpr (fun a ha => mem_posIndices_prop labels a ha)
      have h2 : (((permNeg.take ((⌊((posIndices labels).length : ℚ)
            * (1 - frac) / frac⌋).toNat)).map
          (fun k => (negIndices labels).getD k 0)).countP
            (fun i => isPositiveRow (labels.getD i []))) = 0 := by
        refine List.countP_eq_zero.mpr (fun a ha => ?_)
        rw [mem_negIndices_prop labels a (hmem a ha)]
        simp
      rw [h1, h2, Nat.add_zero]
    · rw [hsub]
      refine List.nodup_append.mpr ⟨hposNodup, hnd hnegNodup, ?_⟩
      intro a ha hcontra
      have h1 := mem_posIndices_prop labels a ha
      have h2 := mem_negIndices_prop labels a (hmem a hcontra)
      rw [h1] at h2
      simp at h2
  · have hsub : subsample numPairs frac labels permPos permNeg
        = ((permPos.take ((⌊(numPairs : ℚ) * frac⌋).toNat)).map
            (fun k => (posIndices labels).getD k 0))
          ++ ((permNeg.take (numPairs - (⌊(numPairs : ℚ) * frac⌋).toNat)).map
            (fun k => (negIndices labels).getD k 0)) := by
      unfold subsample
      rw [if_neg hb]
    obtain ⟨hlenP, hmemP, hndP⟩ := take_perm_map_getD (posIndices labels) permPos
      ((⌊(numPairs : ℚ) * frac⌋).toNat) hp
    obtain ⟨hlenN, hmemN, hndN⟩ := take_perm_map_getD (negIndices labels) permNeg
      (numPairs - (⌊(numPairs : ℚ) * frac⌋).toNat) hn
    have hPle : (⌊(numPairs : ℚ) * frac⌋).toNat ≤ (posIndices labels).length := by
      have hq : (numPairs : ℚ) * frac ≤ (((posIndices labels).length : ℕ) : ℚ) :=
        not_lt.mp hb
      have hfl : ⌊(numPairs : ℚ) * frac⌋ ≤ (((posIndices labels).length : ℕ) : ℤ) := by
        have := Int.floor_le_floor hq
        simpa using this
      exact Int.toNat_le.mpr hfl
    have hcount0 : (((permNeg.take (numPairs - (⌊(numPairs : ℚ) * frac⌋).toNat)).map
          (fun k => (negIndices labels).getD k 0)).countP
            (fun i => isPositiveRow (labels.getD i []))) = 0 := by
      refine List.countP_eq_zero.mpr (fun a ha => ?_)
      rw [mem_negIndices_prop labels a (hmemN a ha)]
      simp
    refine ⟨fun hc => absurd hc hb, fun _ => ⟨?_, ?_⟩, ?_⟩
    · rw [hsub, List.length_append, hlenP, hlenN, Nat.min_eq_left hPle]
    · rw [hsub, List.countP_append]
      have h1 : (((permPos.take ((⌊(numPairs : ℚ) * frac⌋).toNat)).map
            (fun k => (posIndices labels).getD k 0)).countP
              (fun i => isPositiveRow (labels.getD i [])))
          = ((permPos.take ((⌊(numPairs : ℚ) * frac⌋).toNat)).map
              (fun k => (posIndices labels).getD k 0)).length :=
        List.countP_eq_length.mpr (fun a ha => mem_posIndices_prop labels a (hmemP a ha))
      rw [h1, hlenP, hcount0, Nat.min_eq_left hPle, Nat.add_zero]
    · rw [hsub]
      refine List.nodup_append.mpr ⟨hndP hposNodup, hndN hnegNodup, ?_⟩
      intro a ha hcontra
      have h1 := mem_posIndices_prop labels a (hmemP a ha)
      have h2 := mem_negIndices_prop labels a (hmemN a hcontra)
      rw [h1] at h2
      simp at h2

/-- Counterexample to C5 as stated.  First input: one positive row, zero
negative rows, num_box_pairs_per_image = 512, positive_fraction = 1/4.  The
claim asserts the output holds the positive plus floor(1*(3/4)/(1/4)) = 3
negatives, i.e. 4 entries; the code returns a single entry because only 0
negatives exist.  Second input: 2 positive and 5 negative rows with
num_box_pairs_per_image = 6: the claim asserts round(6*(1/4)) = 2 positives,
but the code truncates with int() and keeps 1. -/
theorem subsample_counts_counterexample :
    (subsample 512 (1/4) [[1]] [0] []).length = 1
    ∧ (subsample 6 (1/4) [[1], [1], [0], [0], [0], [0], [0]] [0, 1] [0, 1, 2, 3, 4]).countP
        (fun i => isPositiveRow (([[1], [1], [0], [0], [0], [0], [0]] :
          List (List ℚ)).getD i [])) = 1
    ∧ ⌊(1 : ℚ) * (1 - 1/4) / (1/4)⌋ = 3
    ∧ round ((6 : ℚ) * (1/4)) = 2 := by
  have hpos1 : posIndices [[1]] = [0] := by
    norm_num [posIndices, isPositiveRow, List.range_succ]
  have hneg1 : negIndices [[1]] = [] := by
    norm_num [negIndices, isPositiveRow, List.range_succ]
  have e1 : subsample 512 (1/4) [[1]] [0] [] = [0] := by
    simp only [subsample, hpos1, hneg1]
    rw [if_pos (by norm_num)]
    simp
  have hpos2 : posIndices [[1], [1], [0], [0], [0], [0], [0]] = [0, 1] := by
    norm_num [posIndices, isPositiveRow, List.range_succ]
  have hneg2 : negIndices [[1], [1], [0], [0], [0], [0], [0]] = [2, 3, 4, 5, 6] := by
    norm_num [negIndices, isPositiveRow, List.range_succ]
  have e2 : subsample 6 (1/4) [[1], [1], [0], [0], [0], [0], [0]] [0, 1] [0, 1, 2, 3, 4]
      = [0, 2, 3, 4, 5, 6] := by
    simp only [subsample, hpos2, hneg2]
    rw [if_neg (by norm_num)]
    norm_num
  refine ⟨by rw [e1]; rfl, ?_, by norm_num, by norm_num [round_eq]⟩
  rw [e2]
  norm_num [List.countP_cons, List.countP_nil, isPositiveRow]

/-- Witness for the amended C5 theorem: 1 positive and 1 negative row with
num_box_pairs_per_image = 4 and positive_fraction = 1/4 land in the
enough-positives branch; only one negative exists, so the output has
1 + min(3, 1) = 2 entries and no duplicates. -/
theorem subsample_sizes_witness :
    (subsample 4 (1/4) [[1], [0]] [0] [0]).length = 2
    ∧ (subsample 4 (1/4) [[1], [0]] [0] [0]).Nodup := by
  have hpos : posIndices [[1], [0]] = [0] := by
    norm_num [posIndices, isPositiveRow, List.range_succ]
  have hneg : negIndices [[1], [0]] = [1] := by
    norm_num [negIndices, isPositiveRow, List.range_succ]
  have h := subsample_sizes 4 (1/4) [[1], [0]] [0] [0]
    (by rw [hpos]; decide) (by rw [hneg]; decide) (by norm_num) (by norm_num)
  obtain ⟨h1, h2, h3⟩ := h
  obtain ⟨hlen, hcnt⟩ := h2 (by rw [hpos]; norm_num)
  refine ⟨?_, h3⟩
  rw [hlen, hneg]
  norm_num

/-! ### Memory-budgeted masked RoI align (pocket/ops/masked_roi_align.py)

The feature-map element type F and the pooled-output type Out are abstract;
fmul embeds the elementwise in-place multiply per_instance_features.mul_(mask)
(advanced indexing features[idx] returns fresh copies, so only the boxes
tensor is ever written in place), and poolOne embeds the bilinear region
pooling of a single roi against the feature-map clone selected by its batch
index, which is the documented per-box semantics of _RoIAlignFunction.apply.
Integer tensor division in the torch version used by the source truncates
toward zero (Int.tdiv); Python // and % on ints are Int.fdiv and Int.fmod. -/

/-- One row of the [K,5] rois tensor: batch-index column plus 4 coordinates. -/
structure Roi where
  batchIdx : ℕ
  box : Box
deriving DecidableEq

def bytesMB : ℤ := 1024 ^ 2

def bytesGB : ℤ := bytesMB * 1024

/-- Embedding of the clone_limit computation: the memory left after the
budget is charged for the reserve, the output tensor
(num_boxes, C, outH, outW) and the mask tensor (num_masks, C, H, W) at 4
bytes per element, divided by the bytes of one feature-map clone. -/
def cloneLimit (numBoxes numMasks featC featH featW outH outW : ℕ)
    (memLimit reserve : ℤ) : ℤ :=
  Int.tdiv
    (Int.tdiv
      (memLimit * bytesGB - reserve * bytesMB
        - (numBoxes * featC * outH * outW : ℕ) * 4
        - (numMasks * featC * featH * featW : ℕ) * 4)
      ((featC * featH * featW : ℕ)))
    4

/-- Embedding of num_iter = num_boxes // clone_limit + bool(num_boxes %
clone_limit), with Python floor-division and sign-of-divisor modulo. -/
def numIterZ (numBoxes : ℕ) (cloneLim : ℤ) : ℤ :=
  (numBoxes : ℤ).fdiv cloneLim + (if (numBoxes : ℤ).fmod cloneLim ≠ 0 then 1 else 0)

/-- Gather of the per-box feature-map clones: features[boxes[start:end, 0].long()]. -/
def gatherFeatures {F : Type} (features : List F) (fdef : F)
    (chunk : List (Roi × F)) : List F :=
  chunk.map (fun rm => features.getD rm.1.batchIdx fdef)

/-- Elementwise mask application per_instance_features.mul_(masks[start:end]). -/
def maskFeatures {F : Type} (fmul : F → F → F) (per : List F) (chunkMasks : List F) :
    List F :=
  (per.zip chunkMasks).map (fun p => fmul p.1 p.2)

/-- The in-place renumbering boxes[start:end, 0] = arange(end - start). -/
def renumberRois (rois : List Roi) : List Roi :=
  rois.mapIdx (fun j r => { r with batchIdx := j })

/-- Documented semantics of _RoIAlignFunction.apply: each roi row is pooled
from the stacked input selected by its batch-index column. -/
def roiAlignApply {F Out : Type} (poolOne : F → Box → Out) (fdef : F)
    (stacked : List F) (rois : List Roi) : List Out :=
  rois.map (fun r => poolOne (stacked.getD r.batchIdx fdef) r.box)

/-- One iteration of the pooling loop on the chunk boxes[start:end]: gather
the clones by the original batch indices (read before the renumbering write),
apply the masks, renumber the batch-index column to 0..len-1 and pool. -/
def poolChunk {F Out : Type} (fmul : F → F → F) (poolOne : F → Box → Out)
    (features : List F) (fdef : F) (chunk : List (Roi × F)) : List Out :=
  roiAlignApply poolOne fdef
    (maskFeatures fmul (gatherFeatures features fdef chunk) (chunk.map Prod.snd))
    (renumberRois (chunk.map Prod.fst))

/-- The loop for idx in range(num_iter): iteration idx handles the slice
[idx*clone_limit, min((idx+1)*clone_limit, num_boxes)), which is the first
cloneLim entries of the remaining suffix; the fuel argument is num_iter.
The second component is the boxes tensor after the in-place batch-index
writes, with any suffix not reached by the loop left unchanged. -/
def poolChunksRec {F Out : Type} (fmul : F → F → F) (poolOne : F → Box → Out)
    (features : List F) (fdef : F) (cloneLim : ℕ) :
    ℕ → List (Roi × F) → List Out × List Roi
  | 0, items => ([], items.map Prod.fst)
  | fuel + 1, items =>
      let rest := poolChunksRec fmul poolOne features fdef cloneLim fuel
        (items.drop cloneLim)
      (poolChunk fmul poolOne features fdef (items.take cloneLim) ++ rest.1,
       renumberRois ((items.take cloneLim).map Prod.fst) ++ rest.2)

/-- The ways masked_roi_align aborts: ZeroDivisionError at num_boxes //
clone_limit when clone_limit is 0; RuntimeError from torch.cat([], 0) when
the loop body never ran; AssertionError from the final shape assertion. -/
inductive RoiAlignFailure where
  | zeroDivision
  | emptyCat
  | shapeAssert
deriving DecidableEq

/-- Embedding of masked_roi_align.  Returns the pooled outputs together with
the final state of the boxes tensor (whose batch-index column the loop
overwrites in place); a zero-box input returns an empty output before any
budget computation. -/
def maskedRoiAlign {F Out : Type} (fmul : F → F → F) (poolOne : F → Box → Out)
    (featC featH featW outH outW : ℕ) (features : List F) (fdef : F)
    (boxes : List Roi) (masks : List F) (memLimit reserve : ℤ) :
    Except RoiAlignFailure (List Out × List Roi) :=
  if boxes.length = 0 then Except.ok ([], boxes)
  else
    let cl := cloneLimit boxes.length masks.length featC featH featW outH outW
      memLimit reserve
    if cl = 0 then Except.error RoiAlignFailure.zeroDivision
    else
      let nIter := numIterZ boxes.length cl
      if nIter ≤ 0 then Except.error RoiAlignFailure.emptyCat
      else
        let r := poolChunksRec fmul poolOne features fdef cl.toNat nIter.toNat
          (boxes.zip masks)
        if r.1.length = boxes.length then Except.ok r
        else Except.error RoiAlignFailure.shapeAssert

theorem mapIdx_congr {α β : Type} (l : List α) (f g : ℕ → α → β)
    (h : ∀ (i : ℕ) (hi : i < l.length), f i l[i] = g i l[i]) :
    l.mapIdx f = l.mapIdx g := by
  refine List.ext_getElem (by simp) (fun i h1 h2 => ?_)
  simp only [List.getElem_mapIdx]
  exact h i (by simpa using h1)

theorem poolChunk_eq_map {F Out : Type} (fmul : F → F → F) (poolOne : F → Box → Out)
    (features : List F) (fdef : F) (chunk : List (Roi × F)) :
    poolChunk fmul poolOne features fdef chunk
      = chunk.map (fun rm =>
          poolOne (fmul (features.getD rm.1.batchIdx fdef) rm.2) rm.1.box) := by
  unfold poolChunk roiAlignApply renumberRois maskFeatures gatherFeatures
  refine List.ext_getElem (by simp) (fun i h1 h2 => ?_)
  have hc : i < chunk.length := by simpa using h2
  have hmlen : i < (((chunk.map (fun rm => features.getD rm.1.batchIdx fdef)).zip
      (chunk.map Prod.snd)).map (fun p => fmul p.1 p.2)).length := by
    simpa using hc
  simp only [List.getElem_map, List.getElem_mapIdx]
  rw [List.getD_eq_getElem _ _ hmlen]
  simp [List.getElem_zip]

theorem renumberRois_map_fst {F : Type} (l : List (Roi × F)) :
    renumberRois (l.map Prod.fst)
      = l.mapIdx (fun j rm => { rm.1 with batchIdx := j }) := by
  unfold renumberRois
  refine List.ext_getElem (by simp) (fun i h1 h2 => ?_)
  simp [List.getElem_mapIdx, List.getElem_map]

theorem poolChunksRec_fst {F Out : Type} (fmul : F → F → F) (poolOne : F → Box → Out)
    (features : List F) (fdef : F) (cl : ℕ) (fuel : ℕ) :
    ∀ items : List (Roi × F), items.length ≤ fuel * cl →
      (poolChunksRec fmul poolOne features fdef cl fuel items).1
        = items.map (fun rm =>
            poolOne (fmul (features.getD rm.1.batchIdx fdef) rm.2) rm.1.box) := by
  induction fuel with
  | zero =>
      intro items h
      rw [Nat.zero_mul] at h
      have : items = [] := List.length_eq_zero.mp (Nat.le_zero.mp h)
      subst this
      rfl
  | succ n ih =>
      intro items h
      rw [Nat.succ_mul] at h
      simp only [poolChunksRec]
      rw [poolChunk_eq_map,
        ih (items.drop cl) (by rw [List.length_drop]; omega),
        ← List.map_append, List.take_append_drop]

theorem poolChunksRec_snd {F Out : Type} (fmul : F → F → F) (poolOne : F → Box → Out)
    (features : List F) (fdef : F) (cl : ℕ) (fuel : ℕ) :
    ∀ items : List (Roi × F), items.length ≤ fuel * cl →
      (poolChunksRec fmul poolOne features fdef cl fuel items).2
        = items.mapIdx (fun i rm => { rm.1 with batchIdx := i % cl }) := by
  induction fuel with
  | zero =>
      intro items h
      rw [Nat.zero_mul] at h
      have : items = [] := List.length_eq_zero.mp (Nat.le_zero.mp h)
      subst this
      rfl
  | succ n ih =>
      intro items h
      rw [Nat.succ_mul] at h
      simp only [poolChunksRec]
      rw [renumberRois_map_fst, ih (items.drop cl) (by rw [List.length_drop]; omega)]
      conv_rhs => rw [← List.take_append_drop cl items]
      rw [List.mapIdx_append]
      congr 1
      · refine mapIdx_congr _ _ _ (fun i hi => ?_)
        have hicl : i < cl := by
          have := hi
          rw [List.length_take] at this
          omega
        rw [Nat.mod_eq_of_lt hicl]
      · refine mapIdx_congr _ _ _ (fun i hi => ?_)
        have hlen : cl ≤ items.length := by
          have := hi
          rw [List.length_drop] at this
          omega
        rw [List.length_take, Nat.min_eq_left hlen, Nat.add_mod_right]

theorem fdiv_le_neg_one (a b : ℤ) (ha : 1 ≤ a) (hb : b ≤ -1) : a.fdiv b ≤ -1 := by
  obtain ⟨n, rfl⟩ := Int.eq_ofNat_of_zero_le (by omega : (0 : ℤ) ≤ a)
  obtain ⟨m, rfl⟩ := Int.eq_negSucc_of_lt_zero (by omega : b < 0)
  cases n with
  | zero => exact absurd ha (by decide)
  | succ k =>
      have heq : (((k + 1 : ℕ) : ℤ)).fdiv (Int.negSucc m) = Int.negSucc (k / (m + 1)) := rfl
      rw [heq, Int.negSucc_eq]
      have h0 : (0 : ℤ) ≤ ((k / (m + 1) : ℕ) : ℤ) := Int.natCast_nonneg _
      linarith

theorem numIterZ_nonpos (nb : ℕ) (cl : ℤ) (hnb : 1 ≤ nb) (hcl : cl ≤ -1) :
    numIterZ nb cl ≤ 0 := by
  unfold numIterZ
  have h1 : (nb : ℤ).fdiv cl ≤ -1 := fdiv_le_neg_one _ _ (by exact_mod_cast hnb) hcl
  have h2 : (if (nb : ℤ).fmod cl ≠ 0 then (1 : ℤ) else 0) ≤ 1 := by
    split <;> omega
  omega

theorem numIterZ_pos (nb : ℕ) (cl : ℤ) (hnb : 1 ≤ nb) (hcl : 1 ≤ cl) :
    0 < numIterZ nb cl := by
  unfold numIterZ
  rw [Int.fdiv_eq_ediv _ (by omega), Int.fmod_eq_emod _ (by omega)]
  have hq0 : 0 ≤ (nb : ℤ) / cl := Int.ediv_nonneg (by positivity) (by omega)
  have hid : cl * ((nb : ℤ) / cl) + (nb : ℤ) % cl = nb := Int.ediv_add_emod _ _
  by_cases hr : (nb : ℤ) % cl = 0
  · rw [if_neg (by simpa using hr)]
    rcases hq0.lt_or_eq with h | h
    · omega
    · exfalso
      rw [hr, ← h] at hid
      simp at hid
      omega
  · rw [if_pos hr]
    omega

theorem le_numIterZ_mul (nb : ℕ) (cl : ℤ) (hcl : 1 ≤ cl) :
    nb ≤ (numIterZ nb cl).toNat * cl.toNat := by
  unfold numIterZ
  rw [Int.fdiv_eq_ediv _ (by omega), Int.fmod_eq_emod _ (by omega)]
  have hq0 : 0 ≤ (nb : ℤ) / cl := Int.ediv_nonneg (by positivity) (by omega)
  have hid : cl * ((nb : ℤ) / cl) + (nb : ℤ) % cl = nb := Int.ediv_add_emod _ _
  have hr0 : 0 ≤ (nb : ℤ) % cl := Int.emod_nonneg _ (by omega)
  have hrlt : (nb : ℤ) % cl < cl := Int.emod_lt_of_pos _ (by omega)
  have key : (nb : ℤ) ≤ ((nb : ℤ) / cl + if (nb : ℤ) % cl ≠ 0 then 1 else 0) * cl := by
    by_cases hr : (nb : ℤ) % cl = 0
    · rw [if_neg (by simpa using hr)]
      nlinarith [hid, hr]
    · rw [if_pos hr]
      nlinarith [hid, hrlt]
  have hsum0 : 0 ≤ (nb : ℤ) / cl + if (nb : ℤ) % cl ≠ 0 then 1 else 0 := by
    split <;> omega
  have hcast : ((((nb : ℤ) / cl + if (nb : ℤ) % cl ≠ 0 then 1 else 0).toNat
      * cl.toNat : ℕ) : ℤ)
      = ((nb : ℤ) / cl + if (nb : ℤ) % cl ≠ 0 then 1 else 0) * cl := by
    push_cast
    rw [Int.toNat_of_nonneg hsum0, Int.toNat_of_nonneg (by omega : (0 : ℤ) ≤ cl)]
  have : ((nb : ℕ) : ℤ) ≤ ((((nb : ℤ) / cl + if (nb : ℤ) % cl ≠ 0 then 1 else 0).toNat
      * cl.toNat : ℕ) : ℤ) := by
    rw [hcast]
    exact key
  exact_mod_cast this

/-- C2: with at least one box and an infeasible budget (clone capacity below
1), the call fails before any pooling: clone capacity 0 raises at the
num_boxes // clone_limit division, and a negative capacity makes num_iter
nonpositive so the loop never runs and torch.cat of the empty output list
raises; either way an error reaches the caller and no pooled tensor is
produced. -/
theorem masked_roi_align_infeasible_budget_fails {F Out : Type}
    (fmul : F → F → F) (poolOne : F → Box → Out)
    (featC featH featW outH outW : ℕ) (features : List F) (fdef : F)
    (boxes : List Roi) (masks : List F) (memLimit reserve : ℤ)
    (hne : boxes.length ≠ 0)
    (hcl : cloneLimit boxes.length masks.length featC featH featW outH outW
      memLimit reserve < 1) :
    maskedRoiAlign fmul poolOne featC featH featW outH outW features fdef
        boxes masks memLimit reserve = Except.error RoiAlignFailure.zeroDivision
    ∨ maskedRoiAlign fmul poolOne featC featH featW outH outW features fdef
        boxes masks memLimit reserve = Except.error RoiAlignFailure.emptyCat := by
  unfold maskedRoiAlign
  rw [if_neg hne]
  by_cases hc0 : cloneLimit boxes.length masks.length featC featH featW outH outW
      memLimit reserve = 0
  · left
    rw [if_pos hc0]
  · right
    rw [if_neg hc0]
    have hnonpos : numIterZ boxes.length (cloneLimit boxes.length masks.length
        featC featH featW outH outW memLimit reserve) ≤ 0 :=
      numIterZ_nonpos _ _ (by omega) (by omega)
    rw [if_pos hnonpos]

/-- Shared characterization: under a feasible budget the call succeeds, the
pooled outputs are exactly the per-box pools of the mask-multiplied clone of
the owning feature map in input order, and the boxes tensor comes back with
its batch-index column renumbered to the local chunk offsets. -/
theorem maskedRoiAlign_feasible {F Out : Type}
    (fmul : F → F → F) (poolOne : F → Box → Out)
    (featC featH featW outH outW : ℕ) (features : List F) (fdef : F)
    (boxes : List Roi) (masks : List F) (memLimit reserve : ℤ)
    (hm : masks.length = boxes.length)
    (hcl : 1 ≤ cloneLimit boxes.length masks.length featC featH featW outH outW
      memLimit reserve) :
    maskedRoiAlign fmul poolOne featC featH featW outH outW features fdef
        boxes masks memLimit reserve
      = Except.ok
          ((boxes.zip masks).map (fun rm =>
            poolOne (fmul (features.getD rm.1.batchIdx fdef) rm.2) rm.1.box),
           boxes.mapIdx (fun i r =>
            { r with batchIdx := i % (cloneLimit boxes.length masks.length
                featC featH featW outH outW memLimit reserve).toNat })) := by
  have hzip : (boxes.zip masks).length = boxes.length := by
    rw [List.length_zip, hm, Nat.min_self]
  by_cases h0 : boxes.length = 0
  · have hb : boxes = [] := List.length_eq_zero.mp h0
    have hmk : masks = [] := List.length_eq_zero.mp (by omega)
    subst hb
    subst hmk
    rfl
  · unfold maskedRoiAlign
    rw [if_neg h0, if_neg (by omega)]
    have hpos : 0 < numIterZ boxes.length (cloneLimit boxes.length masks.length
        featC featH featW outH outW memLimit reserve) :=
      numIterZ_pos _ _ (by omega) hcl
    rw [if_neg (by omega)]
    have hfuel : (boxes.zip masks).length
        ≤ (numIterZ boxes.length (cloneLimit boxes.length masks.length
            featC featH featW outH outW memLimit reserve)).toNat
          * (cloneLimit boxes.length masks.length featC featH featW outH outW
            memLimit reserve).toNat := by
      rw [hzip]
      exact le_numIterZ_mul _ _ hcl
    have hfst := poolChunksRec_fst fmul poolOne features fdef
      (cloneLimit boxes.length masks.length featC featH featW outH outW
        memLimit reserve).toNat
      (numIterZ boxes.length (cloneLimit boxes.length masks.length featC featH
        featW outH outW memLimit reserve)).toNat
      (boxes.zip masks) hfuel
    have hsnd := poolChunksRec_snd fmul poolOne features fdef
      (cloneLimit boxes.length masks.length featC featH featW outH outW
        memLimit reserve).toNat
      (numIterZ boxes.length (cloneLimit boxes.length masks.length featC featH
        featW outH outW memLimit reserve)).toNat
      (boxes.zip masks) hfuel
    have hlen : (poolChunksRec fmul poolOne features fdef
        (cloneLimit boxes.length masks.length featC featH featW outH outW
          memLimit reserve).toNat
        (numIterZ boxes.length (cloneLimit boxes.length masks.length featC featH
          featW outH outW memLimit reserve)).toNat
        (boxes.zip masks)).1.length = boxes.length := by
      rw [hfst, List.length_map, hzip]
    rw [if_pos hlen]
    congr 1
    refine Prod.ext ?_ ?_
    · rw [hfst]
    · rw [hsnd]
      refine List.ext_getElem (by simp [hzip]) (fun i h1 h2 => ?_)
      simp [List.getElem_mapIdx, List.getElem_zip]

instance {ε α : Type} [DecidableEq ε] [DecidableEq α] : DecidableEq (Except ε α) :=
  fun x y =>
    match x, y with
    | Except.error a, Except.error b => decidable_of_iff (a = b) (by simp)
    | Except.error _, Except.ok _ => Decidable.isFalse (by simp)
    | Except.ok _, Except.error _ => Decidable.isFalse (by simp)
    | Except.ok a, Except.ok b => decidable_of_iff (a = b) (by simp)

/-- Witness for C2: a single box and mask over a 1x1x1 feature map with a
zero memory budget; the clone capacity evaluates to -2 and the call errors. -/
theorem masked_roi_align_infeasible_budget_fails_witness :
    ([(⟨0, boxZero⟩ : Roi)] : List Roi).length ≠ 0
    ∧ cloneLimit 1 1 1 1 1 1 1 0 0 < 1
    ∧ (maskedRoiAlign (fun a b : ℕ => a * b) (fun f _ => f) 1 1 1 1 1 [0] 0
          [⟨0, boxZero⟩] [0] 0 0 = Except.error RoiAlignFailure.zeroDivision
      ∨ maskedRoiAlign (fun a b : ℕ => a * b) (fun f _ => f) 1 1 1 1 1 [0] 0
          [⟨0, boxZero⟩] [0] 0 0 = Except.error RoiAlignFailure.emptyCat) :=
  ⟨by decide, by decide,
    masked_roi_align_infeasible_budget_fails (fun a b : ℕ => a * b) (fun f _ => f)
      1 1 1 1 1 [0] 0 [⟨0, boxZero⟩] [0] 0 0 (by decide) (by decide)⟩

/-- C3: under any two feasible budgets the pooled outputs agree bit for bit,
both equal to the per-box pooling of the masked clone of the owning feature
map in input box order, and their number equals the number of input boxes
(the output shape is (total_boxes, C, h_out, w_out)); chunking affects only
peak memory. -/
theorem masked_roi_align_budget_independent {F Out : Type}
    (fmul : F → F → F) (poolOne : F → Box → Out)
    (featC featH featW outH outW : ℕ) (features : List F) (fdef : F)
    (boxes : List Roi) (masks : List F) (memLimit1 reserve1 memLimit2 reserve2 : ℤ)
    (hm : masks.length = boxes.length)
    (h1 : 1 ≤ cloneLimit boxes.length masks.length featC featH featW outH outW
      memLimit1 reserve1)
    (h2 : 1 ≤ cloneLimit boxes.length masks.length featC featH featW outH outW
      memLimit2 reserve2) :
    Except.map Prod.fst (maskedRoiAlign fmul poolOne featC featH featW outH outW
        features fdef boxes masks memLimit1 reserve1)
      = Except.map Prod.fst (maskedRoiAlign fmul poolOne featC featH featW outH outW
        features fdef boxes masks memLimit2 reserve2)
    ∧ Except.map Prod.fst (maskedRoiAlign fmul poolOne featC featH featW outH outW
        features fdef boxes masks memLimit1 reserve1)
      = Except.ok ((boxes.zip masks).map (fun rm =>
          poolOne (fmul (features.getD rm.1.batchIdx fdef) rm.2) rm.1.box))
    ∧ ((boxes.zip masks).map (fun rm =>
          poolOne (fmul (features.getD rm.1.batchIdx fdef) rm.2) rm.1.box)).length
      = boxes.length := by
  rw [maskedRoiAlign_feasible fmul poolOne featC featH featW outH outW features fdef
      boxes masks memLimit1 reserve1 hm h1,
    maskedRoiAlign_feasible fmul poolOne featC featH featW outH outW features fdef
      boxes masks memLimit2 reserve2 hm h2]
  refine ⟨rfl, rfl, ?_⟩
  rw [List.length_map, List.length_zip, hm, Nat.min_self]

/-- Witness for C3: two boxes over a single 1x1x1 feature map pooled under a
1 GB and a 2 GB budget. -/
theorem masked_roi_align_budget_independent_witness :
    ([1, 1] : List ℕ).length = ([⟨0, boxZero⟩, ⟨0, boxZero⟩] : List Roi).length
    ∧ 1 ≤ cloneLimit 2 2 1 1 1 1 1 1 0
    ∧ 1 ≤ cloneLimit 2 2 1 1 1 1 1 2 0
    ∧ (Except.map Prod.fst (maskedRoiAlign (fun a b : ℕ => a + b) (fun f _ => f)
          1 1 1 1 1 [5] 0 [⟨0, boxZero⟩, ⟨0, boxZero⟩] [1, 1] 1 0)
        = Except.map Prod.fst (maskedRoiAlign (fun a b : ℕ => a + b) (fun f _ => f)
          1 1 1 1 1 [5] 0 [⟨0, boxZero⟩, ⟨0, boxZero⟩] [1, 1] 2 0)) :=
  ⟨by decide, by decide, by decide,
    (masked_roi_align_budget_independent (fun a b : ℕ => a + b) (fun f _ => f)
      1 1 1 1 1 [5] 0 [⟨0, boxZero⟩, ⟨0, boxZero⟩] [1, 1] 1 0 2 0
      (by decide) (by decide) (by decide)).1⟩

/-- Counterexample to C4 as stated: two boxes of the same image pooled under
a feasible budget; after the call the batch-index column of the [K,5] boxes
tensor reads [0, 1] instead of the original [0, 0] — masked_roi_align
renumbers it in place. -/
theorem masked_roi_align_mutates_box_indices :
    Except.map Prod.snd (maskedRoiAlign (fun a b : ℕ => a + b) (fun f _ => f)
        1 1 1 1 1 [5] 0 [⟨0, boxZero⟩, ⟨0, boxZero⟩] [1, 1] 1 0)
      = Except.ok [⟨0, boxZero⟩, ⟨1, boxZero⟩]
    ∧ ([(⟨0, boxZero⟩ : Roi), ⟨1, boxZero⟩] : List Roi)
      ≠ [⟨0, boxZero⟩, ⟨0, boxZero⟩] := by
  refine ⟨by decide, by decide⟩

/-- C4 (amended): masked_roi_align leaves features and masks untouched (the
gathered per-box clones are fresh copies) and returns a newly allocated
pooled tensor, but it does overwrite the batch-index column of the (converted)
boxes tensor in place: after a feasible call, entry i of that column holds
i mod clone_capacity, its local chunk offset, while the coordinate columns
are unchanged; a caller passing boxes as a [K,5] tensor observes this
mutation (list-form boxes are converted to a fresh tensor first). -/
theorem masked_roi_align_box_column_renumbered {F Out : Type}
    (fmul : F → F → F) (poolOne : F → Box → Out)
    (featC featH featW outH outW : ℕ) (features : List F) (fdef : F)
    (boxes : List Roi) (masks : List F) (memLimit reserve : ℤ)
    (hm : masks.length = boxes.length)
    (hcl : 1 ≤ cloneLimit boxes.length masks.length featC featH featW outH outW
      memLimit reserve) :
    Except.map Prod.snd (maskedRoiAlign fmul poolOne featC featH featW outH outW
        features fdef boxes masks memLimit reserve)
      = Except.ok (boxes.mapIdx (fun i r =>
          { r with batchIdx := i % (cloneLimit boxes.length masks.length
              featC featH featW outH outW memLimit reserve).toNat })) := by
  rw [maskedRoiAlign_feasible fmul poolOne featC featH featW outH outW features fdef
    boxes masks memLimit reserve hm hcl]
  rfl

/-- Witness for the amended C4 theorem: both boxes land in the first chunk,
so the batch-index column comes back as [0, 1] with coordinates intact. -/
theorem masked_roi_align_box_column_renumbered_witness :
    Except.map Prod.snd (maskedRoiAlign (fun a b : ℕ => a + b) (fun f _ => f)
        1 1 1 1 1 [7] 0 [⟨0, ⟨1, 2, 3, 4⟩⟩, ⟨0, ⟨5, 6, 7, 8⟩⟩] [1, 1] 1 0)
      = Except.ok [⟨0, ⟨1, 2, 3, 4⟩⟩, ⟨1, ⟨5, 6, 7, 8⟩⟩] :=
  (masked_roi_align_box_column_renumbered (fun a b : ℕ => a + b) (fun f _ => f)
    1 1 1 1 1 [7] 0 [⟨0, ⟨1, 2, 3, 4⟩⟩, ⟨0, ⟨5, 6, 7, 8⟩⟩] [1, 1] 1 0
    (by decide) (by decide)).trans (by decide)

/-! ### Sinkhorn-Knopp normalisation
(InteractionHead.sinkhorn_knopp_normalisation, lines 327-349) -/

/-- Modelled from the spec: sinkhorn_knopp_norm2d is imported from pocket.ops
but its source file is not part of the repository snapshot; section 4.5 of the
spec describes it as the classic iteration that rescales rows to sum 1 and
then columns to sum 1, leaving all-zero rows and columns untouched.  Row
rescaling step over an nR x nC matrix held as a total function. -/
def sinkhornRowStep (nC : ℕ) (f : ℕ → ℕ → ℚ) : ℕ → ℕ → ℚ :=
  fun u v =>
    let s := ((List.range nC).map (f u)).sum
    if s = 0 then f u v else f u v / s

/-- Modelled from the spec: column rescaling step of sinkhorn_knopp_norm2d. -/
def sinkhornColStep (nR : ℕ) (f : ℕ → ℕ → ℚ) : ℕ → ℕ → ℚ :=
  fun u v =>
    let s := ((List.range nR).map (fun w => f w v)).sum
    if s = 0 then f u v else f u v / s

/-- Modelled from the spec: a fixed number of row-then-column rescaling
rounds of sinkhorn_knopp_norm2d. -/
def sinkhornKnoppNorm2d (iters nR nC : ℕ) : (ℕ → ℕ → ℚ) → ℕ → ℕ → ℚ :=
  fun f =>
    match iters with
    | 0 => f
    | n + 1 => sinkhornKnoppNorm2d n nR nC (sinkhornColStep nR (sinkhornRowStep nC f))

/-- The dense cell of pair m: the inverse-index pair produced by
boxes_h.unique(dim=0, return_inverse=True) and the analogous object call.
The embedding numbers the distinct rows by first occurrence (List.dedup)
where torch.unique numbers them in sorted order; only the numbering of the
distinct rows differs, not which pairs share a cell, and nothing below
depends on the numbering. -/
def boxPairCell (boxesH boxesO : List Box) (m : ℕ) : ℕ × ℕ :=
  (List.indexOf (boxesH.getD m boxZero) boxesH.dedup,
   List.indexOf (boxesO.getD m boxZero) boxesO.dedup)

/-- Embedding of the scatter scores_[h_intra_idx, o_intra_idx, :] = scores
into the dense zero-initialised (unique-h, unique-o, class) tensor, held as a
total function from cells to class rows; sequential assignment means the last
pair writing a cell wins. -/
def sinkhornDense (numClasses : ℕ) (boxesH boxesO : List Box)
    (scores : List (List ℚ)) : ℕ × ℕ → List ℚ :=
  ((List.range boxesH.length).map (fun m =>
    (boxPairCell boxesH boxesO m, scores.getD m []))).foldl
    (fun f e => writeCell f e.1 e.2) (fun _ => List.replicate numClasses 0)

/-- Embedding of sinkhorn_knopp_normalisation: scatter into the dense tensor,
normalise every class slice with norm2d (the imported sinkhorn_knopp_norm2d,
kept as a parameter), and gather the result back through the same
inverse-index pairs. -/
def sinkhornKnoppNormalisation (norm2d : ℕ → ℕ → (ℕ → ℕ → ℚ) → ℕ → ℕ → ℚ)
    (numClasses : ℕ) (boxesH boxesO : List Box) (scores : List (List ℚ)) :
    List (List ℚ) :=
  let dense := sinkhornDense numClasses boxesH boxesO scores
  let normed : ℕ × ℕ → List ℚ := fun uv =>
    (List.range numClasses).map (fun c =>
      norm2d boxesH.dedup.length boxesO.dedup.length
        (fun u v => (dense (u, v)).getD c 0) uv.1 uv.2)
  (List.range boxesH.length).map (fun m => normed (boxPairCell boxesH boxesO m))

/-- C10: when pairs m1 < m2 carry identical human and object boxes and no
later pair shares those boxes, the dense cell holds the later pair's score
row (the earlier one was overwritten before normalisation), and the gathered
output rows of the two pairs coincide, for any norm2d. -/
theorem sinkhorn_duplicate_pairs_last_write
    (norm2d : ℕ → ℕ → (ℕ → ℕ → ℚ) → ℕ → ℕ → ℚ) (numClasses : ℕ)
    (boxesH boxesO : List Box) (scores : List (List ℚ)) (m1 m2 : ℕ)
    (h12 : m1 < m2) (hm2 : m2 < boxesH.length)
    (hlo : boxesO.length = boxesH.length)
    (hbh : boxesH.getD m1 boxZero = boxesH.getD m2 boxZero)
    (hbo : boxesO.getD m1 boxZero = boxesO.getD m2 boxZero)
    (hlast : ∀ m, m2 < m → m < boxesH.length →
      ¬ (boxesH.getD m boxZero = boxesH.getD m1 boxZero
        ∧ boxesO.getD m boxZero = boxesO.getD m1 boxZero)) :
    sinkhornDense numClasses boxesH boxesO scores (boxPairCell boxesH boxesO m1)
      = scores.getD m2 []
    ∧ (sinkhornKnoppNormalisation norm2d numClasses boxesH boxesO scores).getD m1 []
      = (sinkhornKnoppNormalisation norm2d numClasses boxesH boxesO scores).getD m2 [] := by
  have hcell : boxPairCell boxesH boxesO m1 = boxPairCell boxesH boxesO m2 := by
    unfold boxPairCell
    rw [hbh, hbo]
  have hrange : List.range boxesH.length
      = (List.range m2 ++ [m2])
        ++ (List.range (boxesH.length - (m2 + 1))).map (fun x => (m2 + 1) + x) := by
    conv_lhs => rw [show boxesH.length = (m2 + 1) + (boxesH.length - (m2 + 1)) by omega]
    rw [List.range_add, List.range_succ]
  have hkeys : ∀ x ∈ ((List.range (boxesH.length - (m2 + 1))).map
        (fun x => (m2 + 1) + x)).map (fun m =>
          (boxPairCell boxesH boxesO m, scores.getD m [])),
      x.1 ≠ (boxPairCell boxesH boxesO m2, scores.getD m2 []).1 := by
    intro x hx
    obtain ⟨m, hm, rfl⟩ := List.mem_map.mp hx
    obtain ⟨x0, hx0, rfl⟩ := List.mem_map.mp hm
    have hx0r := List.mem_range.mp hx0
    intro heq
    have h1 := congrArg Prod.fst heq
    have h2 := congrArg Prod.snd heq
    simp only [boxPairCell] at h1 h2
    have hmlt : m2 + 1 + x0 < boxesH.length := by omega
    have hmemH1 : boxesH.getD (m2 + 1 + x0) boxZero ∈ boxesH.dedup := by
      rw [List.getD_eq_getElem boxesH boxZero hmlt]
      exact List.mem_dedup.mpr (List.getElem_mem hmlt)
    have hmemH2 : boxesH.getD m2 boxZero ∈ boxesH.dedup := by
      rw [List.getD_eq_getElem boxesH boxZero hm2]
      exact List.mem_dedup.mpr (List.getElem_mem hm2)
    have hmltO : m2 + 1 + x0 < boxesO.length := by omega
    have hm2O : m2 < boxesO.length := by omega
    have hmemO1 : boxesO.getD (m2 + 1 + x0) boxZero ∈ boxesO.dedup := by
      rw [List.getD_eq_getElem boxesO boxZero hmltO]
      exact List.mem_dedup.mpr (List.getElem_mem hmltO)
    have hmemO2 : boxesO.getD m2 boxZero ∈ boxesO.dedup := by
      rw [List.getD_eq_getElem boxesO boxZero hm2O]
      exact List.mem_dedup.mpr (List.getElem_mem hm2O)
    have heqH : boxesH.getD (m2 + 1 + x0) boxZero = boxesH.getD m2 boxZero :=
      (List.indexOf_inj hmemH1 hmemH2).mp h1
    have heqO : boxesO.getD (m2 + 1 + x0) boxZero = boxesO.getD m2 boxZero :=
      (List.indexOf_inj hmemO1 hmemO2).mp h2
    exact hlast (m2 + 1 + x0) (by omega) hmlt ⟨heqH.trans hbh.symm, heqO.trans hbo.symm⟩
  have hdense : sinkhornDense numClasses boxesH boxesO scores
      (boxPairCell boxesH boxesO m1) = scores.getD m2 [] := by
    unfold sinkhornDense
    rw [hcell, hrange]
    rw [List.map_append, List.map_append, List.map_singleton, List.append_assoc,
      List.singleton_append]
    exact foldl_writeCell_last _ _
      (boxPairCell boxesH boxesO m2, scores.getD m2 []) _ hkeys
  refine ⟨hdense, ?_⟩
  unfold sinkhornKnoppNormalisation
  have hm1 : m1 < boxesH.length := by omega
  have hlen : ∀ m : ℕ, m < boxesH.length →
      ((List.range boxesH.length).map (fun m =>
        (List.range numClasses).map (fun c =>
          norm2d boxesH.dedup.length boxesO.dedup.length
            (fun u v => (sinkhornDense numClasses boxesH boxesO scores (u, v)).getD c 0)
            (boxPairCell boxesH boxesO m).1 (boxPairCell boxesH boxesO m).2))).getD m []
      = (List.range numClasses).map (fun c =>
          norm2d boxesH.dedup.length boxesO.dedup.length
            (fun u v => (sinkhornDense numClasses boxesH boxesO scores (u, v)).getD c 0)
            (boxPairCell boxesH boxesO m).1 (boxPairCell boxesH boxesO m).2) := by
    intro m hm
    have hml : m < ((List.range boxesH.length).map (fun m =>
        (List.range numClasses).map (fun c =>
          norm2d boxesH.dedup.length boxesO.dedup.length
            (fun u v => (sinkhornDense numClasses boxesH boxesO scores (u, v)).getD c 0)
            (boxPairCell boxesH boxesO m).1 (boxPairCell boxesH boxesO m).2))).length := by
      simpa using hm
    rw [List.getD_eq_getElem _ _ hml, List.getElem_map, List.getElem_range]
  rw [hlen m1 hm1, hlen m2 hm2, hcell]

/-- Witness for C10: two pairs with identical human and object boxes and
score rows [1] and [2]; the shared dense cell holds [2] and both pairs gather
the same normalised row (norm2d instantiated with the identity map). -/
theorem sinkhorn_duplicate_pairs_last_write_witness :
    sinkhornDense 1 [⟨0, 0, 1, 1⟩, ⟨0, 0, 1, 1⟩] [⟨2, 2, 3, 3⟩, ⟨2, 2, 3, 3⟩]
        [[1], [2]] (boxPairCell [⟨0, 0, 1, 1⟩, ⟨0, 0, 1, 1⟩]
          [⟨2, 2, 3, 3⟩, ⟨2, 2, 3, 3⟩] 0) = [2]
    ∧ (sinkhornKnoppNormalisation (fun _ _ f => f) 1
        [⟨0, 0, 1, 1⟩, ⟨0, 0, 1, 1⟩] [⟨2, 2, 3, 3⟩, ⟨2, 2, 3, 3⟩] [[1], [2]]).getD 0 []
      = (sinkhornKnoppNormalisation (fun _ _ f => f) 1
        [⟨0, 0, 1, 1⟩, ⟨0, 0, 1, 1⟩] [⟨2, 2, 3, 3⟩, ⟨2, 2, 3, 3⟩] [[1], [2]]).getD 1 [] := by
  have h := sinkhorn_duplicate_pairs_last_write (fun _ _ f => f) 1
    [⟨0, 0, 1, 1⟩, ⟨0, 0, 1, 1⟩] [⟨2, 2, 3, 3⟩, ⟨2, 2, 3, 3⟩] [[1], [2]] 0 1
    (by decide) (by decide) (by decide) (by decide) (by decide)
    (fun m h1 h2 => by
      simp only [List.length_cons, List.length_nil] at h2
      omega)
  exact ⟨h.1.trans (by decide), h.2⟩

/-! ### Inference postprocessing
(InteractionHead.postprocess, lines 351-372, and the zero-pair gate of
InteractionHead.forward, lines 409-412) -/

/-- The exception observed in postprocess when an image has zero pairs:
keep_cls is an empty list and keep_cls[0].device raises IndexError. -/
inductive PostprocessFailure where
  | indexError
deriving DecidableEq

/-- Per-image result dict of postprocess: boxes_h, boxes_o filtered by the
keep mask, plus the per-pair class-index lists and matching score lists. -/
structure InteractionOutput where
  boxesH : List Box
  boxesO : List Box
  labels : List (List ℕ)
  scores : List (List ℚ)
deriving DecidableEq

/-- Elementwise product of two score matrices held as row lists. -/
def mulRows (a b : List (List ℚ)) : List (List ℚ) :=
  (a.zip b).map (fun rr => (rr.1.zip rr.2).map (fun xy => xy.1 * xy.2))

/-- Boolean-mask selection b_h[keep_box]. -/
def maskSelect {α : Type} (xs : List α) (keep : List Bool) : List α :=
  (xs.zip keep).filterMap (fun xk => if xk.2 then some xk.1 else none)

/-- Embedding of the per-image body of InteractionHead.postprocess: interaction
scores are prior * sigmoid(logits), multiplied in place by the Sinkhorn
normalisation; keep_cls lists the nonzero classes of each row; evaluating
keep_cls[0].device on an image with zero pairs raises IndexError, embedded as
the error branch.  The sigmoid nonlinearity is a parameter of the embedding. -/
def postprocessImage (norm2d : ℕ → ℕ → (ℕ → ℕ → ℚ) → ℕ → ℕ → ℚ)
    (sigmoid : ℚ → ℚ) (numClasses : ℕ)
    (classLogits priorScores : List (List ℚ)) (boxesH boxesO : List Box) :
    Except PostprocessFailure InteractionOutput :=
  let scores0 := mulRows priorScores (classLogits.map (fun row => row.map sigmoid))
  let scores := mulRows scores0
    (sinkhornKnoppNormalisation norm2d numClasses boxesH boxesO scores0)
  let keepCls := scores.map (fun row =>
    (List.range numClasses).filter (fun c => row.getD c 0 != 0))
  match keepCls with
  | [] => Except.error PostprocessFailure.indexError
  | _ :: _ =>
      let keepBox := keepCls.map (fun cls => !cls.isEmpty)
      Except.ok
        { boxesH := maskSelect boxesH keepBox
          boxesO := maskSelect boxesO keepBox
          labels := keepCls
          scores := (List.range scores.length).map (fun i =>
            (keepCls.getD i []).map (fun c => (scores.getD i []).getD c 0)) }

/-- Embedding of the per-image loop of InteractionHead.postprocess over a
batch; the first image whose body raises aborts the whole call. -/
def interactionHeadPostprocess (norm2d : ℕ → ℕ → (ℕ → ℕ → ℚ) → ℕ → ℕ → ℚ)
    (sigmoid : ℚ → ℚ) (numClasses : ℕ)
    (logits priors : List (List (List ℚ))) (bhs bos : List (List Box)) :
    Except PostprocessFailure (List InteractionOutput) :=
  ((logits.zip priors).zip (bhs.zip bos)).mapM (fun im =>
    postprocessImage norm2d sigmoid numClasses im.1.1 im.1.2 im.2.1 im.2.2)

/-- Embedding of the inference tail of InteractionHead.forward: when the
total pair count over the batch is zero the head returns None before pooling;
otherwise the (externally produced) class logits reach postprocess. -/
def interactionHeadInference (norm2d : ℕ → ℕ → (ℕ → ℕ → ℚ) → ℕ → ℕ → ℚ)
    (sigmoid : ℚ → ℚ) (numClasses : ℕ)
    (logits priors : List (List (List ℚ))) (bhs bos : List (List Box)) :
    Option (Except PostprocessFailure (List InteractionOutput)) :=
  if (bhs.map List.length).sum = 0 then none
  else some (interactionHeadPostprocess norm2d sigmoid numClasses logits priors bhs bos)

/-- C9: evaluation at the failing input.  A two-image inference batch whose
first image has zero pairs and whose second has one pair with nonzero prior
passes the zero-pair gate (the total is 1, not 0) and then aborts the whole
batch with the IndexError from keep_cls[0].device, instead of returning an
empty result for the first image and a detection list for the second; only a
batch in which every image has zero pairs is handled, by returning None for
the whole batch. -/
theorem postprocess_empty_image_crashes :
    interactionHeadInference (sinkhornKnoppNorm2d 50) (fun _ => 1) 1
        [[], [[0]]] [[], [[1]]] [[], [boxZero]] [[], [boxZero]]
      = some (Except.error PostprocessFailure.indexError)
    ∧ interactionHeadInference (sinkhornKnoppNorm2d 50) (fun _ => 1) 1
        [[]] [[]] [[]] [[]]
      = none := by
  refine ⟨by decide, by decide⟩

end Pocket
